import Mathlib

/-!
Verification of `fs/mountfs.py` (MountFS: a virtual filesystem mapping
directories onto other filesystems).

Python strings are embedded as `List Char`; each filesystem backend is an
abstract value of a type `β` (object identity in Python becomes equality of
those values).  A proxied operation is modelled by the pair
`(backend, path argument)` it would invoke on the delegate backend, or the
error the façade itself raises; the backend's own behaviour is out of scope,
exactly as in the specification.

The helpers imported by `mountfs.py` from `fs/path.py` (`normpath`,
`abspath`, `forcedir`), `fs/base.py` (`FS._check`, `FS.close`) and
`fs/mode.py` (mode validation) are not part of the sources; they are
modelled from the specification and marked as such below.
-/

/-- A Python string, embedded as its list of characters. -/
abbrev PyStr := List Char

/-- Python's `big.startswith(small)`. -/
def startswith : PyStr → PyStr → Bool
  | _, [] => true
  | [], _ :: _ => false
  | a :: as_, b :: bs => a == b && startswith as_ bs

/-- Python's `s.rstrip('/')`: remove every trailing `'/'`. -/
def rstripSlash (l : PyStr) : PyStr :=
  (l.reverse.dropWhile (fun c => c == '/')).reverse

/-- Split a string at every `'/'` (Python's `s.split('/')`). -/
def splitSlash : PyStr → List PyStr
  | [] => [[]]
  | c :: rest =>
    if c = '/' then [] :: splitSlash rest
    else
      match splitSlash rest with
      | [] => [[c]]
      | h :: t => (c :: h) :: t

/-- Modelled from the spec: one canonicalization step of the path
normalizer (`fs/path.py` is not in the sources).  Empty and `.` components
are dropped and `..` removes the previous component. -/
def normSteps (acc : List PyStr) (c : PyStr) : List PyStr :=
  if c = [] ∨ c = ['.'] then acc
  else if c = ['.', '.'] then acc.dropLast
  else acc ++ [c]

/-- Modelled from the spec: the canonical component list of a path. -/
def components (p : PyStr) : List PyStr :=
  (splitSlash p).foldl normSteps []

/-- Join components with a single `'/'` between them. -/
def joinSlash : List PyStr → PyStr
  | [] => []
  | [c] => c
  | c :: c₂ :: L => c ++ '/' :: joinSlash (c₂ :: L)

/-- Modelled from the spec: `fs.path.normpath` — collapse duplicate
separators and `.`/`..` components, keeping the path relative or absolute
as it was (`normpath "" = ""`, `normpath "/" = "/"`). -/
def normpath (p : PyStr) : PyStr :=
  (if p.head? = some '/' then ['/'] else []) ++ joinSlash (components p)

/-- Modelled from the spec: `fs.path.abspath` — prepend `'/'` when the
path does not already start with it. -/
def abspath (p : PyStr) : PyStr :=
  if p.head? = some '/' then p else '/' :: p

/-- Modelled from the spec: `fs.path.forcedir` — append `'/'` when the
path does not already end with it. -/
def forcedir (p : PyStr) : PyStr :=
  if p.getLast? = some '/' then p else p ++ ['/']

/-- The normalization applied by `MountFS._delegate` and `MountFS.mount`:
`forcedir(abspath(normpath(path)))`. -/
def npath (p : PyStr) : PyStr :=
  forcedir (abspath (normpath p))

/-- `noDS l` holds when `l` has no two consecutive `'/'` characters. -/
def noDS : PyStr → Bool
  | a :: b :: rest => !(a == '/' && b == '/') && noDS (b :: rest)
  | _ => true

/-- A canonical, separator-terminated absolute directory path: starts and
ends with `'/'` and has no doubled separator. -/
def IsDirPath (l : PyStr) : Prop :=
  l.head? = some '/' ∧ l.getLast? = some '/' ∧ noDS l = true

instance (l : PyStr) : Decidable (IsDirPath l) := by
  unfold IsDirPath; infer_instance

example : npath "/data/foo".data = "/data/foo/".data := by decide
example : npath "".data = "/".data := by decide
example : npath "a//b/./c/..".data = "/a/b/".data := by decide
example : normpath "".data = [] := by decide
example : normpath "/".data = ['/'] := by decide
example : startswith "/data/cache/".data "/data/".data = true := by decide
example : startswith "/data/".data "/data/cache/".data = false := by decide
example : rstripSlash "foo//".data = "foo".data := by decide

/-! ## The MountFS state and operations, from `fs/mountfs.py` -/

/-- Errors raised by the façade itself (not by a backend).
`filesystemClosed` is the lifecycle error raised by `FS._check`;
`removeRootError` is `errors.RemoveRootError`; `invalidOpenMode` stands
for the `ValueError` of the mode validators. -/
inductive Err where
  | filesystemClosed : Err
  | removeRootError : PyStr → Err
  | invalidOpenMode : Err
deriving DecidableEq

/-- The state of a `MountFS` over backend handles of type `β`:
`self.auto_close`, the closed flag maintained by the `FS` base class,
`self.default_fs` (the `MemoryFS` created in `__init__`, abstracted to a
handle) and `self.mounts`, the ordered list of
`(mount_path, fs)` pairs. -/
structure MountFS (β : Type) where
  auto_close : Bool
  closed : Bool
  default_fs : β
  mounts : List (PyStr × β)
deriving DecidableEq

/-- The fresh state built by `MountFS.__init__(auto_close)` with default
backend handle `d`. -/
def MountFS.init (β : Type) (ac : Bool) (d : β) : MountFS β :=
  ⟨ac, false, d, []⟩

/-- Modelled from the spec: `FS._check` (`fs/base.py` is not in the
sources) raises the closed-filesystem error when the filesystem is
closed, and does nothing otherwise. -/
def MountFS._check {β : Type} (m : MountFS β) : Except Err Unit :=
  if m.closed then .error .filesystemClosed else .ok ()

/-- The `for mount_path, fs in self.mounts` loop of `MountFS._delegate`:
first entry whose `mount_path` is a prefix of `target` wins, and the
delegate path is `target[len(mount_path):].rstrip('/')`. -/
def delegateLoop {β : Type} (target : PyStr) : List (PyStr × β) → Option (β × PyStr)
  | [] => none
  | (mount_path, fs) :: rest =>
    if startswith target mount_path then
      some (fs, rstripSlash (target.drop mount_path.length))
    else delegateLoop target rest

/-- `MountFS._delegate`: resolve `path` to a `(fs, path)` pair, returning
the default filesystem with the original, unmodified `path` when no mount
matches. -/
def MountFS._delegate {β : Type} (m : MountFS β) (path : PyStr) : β × PyStr :=
  let target := forcedir (abspath (normpath path))
  match delegateLoop target m.mounts with
  | some r => r
  | none => (m.default_fs, path)

/-- Outcome of a `MountFS.mount` call: success, the `ValueError` for
mounting the filesystem on itself, the `MountError` for an overlapping
mount point, or an error raised by `default_fs.makedirs`. -/
inductive MountOutcome where
  | ok : MountOutcome
  | selfMountError : MountOutcome
  | mountConflict : MountOutcome
  | makedirsError : MountOutcome
deriving DecidableEq

/-- Result of a `MountFS.mount` call: the state after the call returns or
raises, and the outcome. -/
structure MountResult (β : Type) where
  st : MountFS β
  out : MountOutcome
deriving DecidableEq

/-- `MountFS.mount(path, fs)`.  `fsIsSelf` models the Python identity
test `fs is self`, which has no counterpart on abstract handles.
`mkOk` models whether `self.default_fs.makedirs(_path, recreate=True)`
succeeds (the `MemoryFS` backend is not in the sources; per the spec it
may raise a backend error, after the entry was already appended). -/
def MountFS.mount {β : Type} (m : MountFS β) (path : PyStr) (fs : β)
    (fsIsSelf : Bool) (mkOk : PyStr → Bool) : MountResult β :=
  if fsIsSelf then ⟨m, .selfMountError⟩
  else
    let target := forcedir (abspath (normpath path))
    if m.mounts.any (fun e => startswith target e.1) then ⟨m, .mountConflict⟩
    else
      let m' : MountFS β := { m with mounts := m.mounts ++ [(target, fs)] }
      if mkOk target then ⟨m', .ok⟩ else ⟨m', .makedirsError⟩

/-- Result of a `MountFS.close` call: the façade state after the call
returns or raises, the backends whose `close()` was invoked (in order),
whether `default_fs.close()` ran, and whether a child `close()` raised
(the exception then propagates, skipping the rest of the body). -/
structure CloseResult (β : Type) where
  st : MountFS β
  closeCalls : List β
  defaultClosed : Bool
  raised : Bool
deriving DecidableEq

/-- The `for _path, fs in self.mounts: fs.close()` loop, with `fails`
telling which backends raise from `close()`: returns the backends whose
`close()` was invoked in order, and whether one raised. -/
def closeChildren {β : Type} (fails : β → Bool) : List (PyStr × β) → List β × Bool
  | [] => ([], false)
  | (_, fs) :: rest =>
    if fails fs then ([fs], true)
    else
      let r := closeChildren fails rest
      (fs :: r.1, r.2)

/-- `MountFS.close`: when `auto_close` is set, close each mounted backend
in order and clear `self.mounts`; then close `default_fs` and call
`super().close()` — which, modelled from the spec (`fs/base.py` is not in
the sources), marks the façade closed.  An exception from a child
`close()` propagates at once: nothing after it in the body runs. -/
def MountFS.close {β : Type} (m : MountFS β) (fails : β → Bool) : CloseResult β :=
  if m.auto_close then
    let r := closeChildren fails m.mounts
    if r.2 then ⟨m, r.1, false, true⟩
    else ⟨{ m with mounts := [], closed := true }, r.1, true, false⟩
  else ⟨{ m with closed := true }, [], true, false⟩

/-! ### The proxied operations

Each operation is modelled by the `(backend, path)` call it makes, or
the façade-level error it raises.  Arguments that the source forwards
verbatim and that no claim constrains (`namespaces`, `permissions`,
`contents`, encodings, …) are omitted; `openbin` and `open` keep their
`mode` and `buffering` arguments. -/

/-- `MountFS.getinfo`: check, delegate, forward with the delegate path. -/
def MountFS.getinfo {β : Type} (m : MountFS β) (path : PyStr) : Except Err (β × PyStr) := do
  m._check
  return m._delegate path

/-- `MountFS.listdir`: check, delegate, forward with the delegate path. -/
def MountFS.listdir {β : Type} (m : MountFS β) (path : PyStr) : Except Err (β × PyStr) := do
  m._check
  return m._delegate path

/-- `MountFS.makedir`: check, delegate, forward with the delegate path
(`permissions` and `recreate` forwarded verbatim, omitted). -/
def MountFS.makedir {β : Type} (m : MountFS β) (path : PyStr) : Except Err (β × PyStr) := do
  m._check
  return m._delegate path

/-- A call to a backend's `openbin`/`open`: the backend, the path, the
mode and the buffering argument it receives. -/
structure OpenCall (β : Type) where
  fs : β
  path : PyStr
  mode : PyStr
  buffering : Int
deriving DecidableEq

/-- `MountFS.openbin`: validate the mode (`fs/mode.py` is not in the
sources; `modeOk` models `validate_openbin_mode`), check, delegate — and
invoke the backend with `buffering=-1`, as written in the source, not
with the caller's `buffering` argument. -/
def MountFS.openbin {β : Type} (m : MountFS β) (path : PyStr) (mode : PyStr)
    (buffering : Int) (modeOk : Bool) : Except Err (OpenCall β) := do
  if !modeOk then throw .invalidOpenMode
  m._check
  let (fs, p) := m._delegate path
  return ⟨fs, p, mode, -1⟩

/-- `MountFS.remove`: check, delegate, forward with the delegate path. -/
def MountFS.remove {β : Type} (m : MountFS β) (path : PyStr) : Except Err (β × PyStr) := do
  m._check
  return m._delegate path

/-- `MountFS.removedir`: check, then normalize the path; the root (`''`
or `'/'`) raises `RemoveRootError` before any delegation; otherwise
delegate the normalized path and forward with the delegate path. -/
def MountFS.removedir {β : Type} (m : MountFS β) (path : PyStr) : Except Err (β × PyStr) := do
  m._check
  let path := normpath path
  if path = [] ∨ path = ['/'] then throw (.removeRootError path)
  return m._delegate path

/-- `MountFS.getbytes`: check, delegate, forward with the delegate path. -/
def MountFS.getbytes {β : Type} (m : MountFS β) (path : PyStr) : Except Err (β × PyStr) := do
  m._check
  return m._delegate path

/-- `MountFS.gettext`: check, delegate, forward with the delegate path
(encoding arguments forwarded verbatim, omitted). -/
def MountFS.gettext {β : Type} (m : MountFS β) (path : PyStr) : Except Err (β × PyStr) := do
  m._check
  return m._delegate path

/-- `MountFS.getsize`: check, delegate — but the source forwards the
original `path`, not the delegate path. -/
def MountFS.getsize {β : Type} (m : MountFS β) (path : PyStr) : Except Err (β × PyStr) := do
  m._check
  let (fs, _p) := m._delegate path
  return (fs, path)

/-- `MountFS.getsyspath`: check, delegate — but the source forwards the
original `path`, not the delegate path. -/
def MountFS.getsyspath {β : Type} (m : MountFS β) (path : PyStr) : Except Err (β × PyStr) := do
  m._check
  let (fs, _p) := m._delegate path
  return (fs, path)

/-- `MountFS.gettype`: check, delegate, forward with the delegate path. -/
def MountFS.gettype {β : Type} (m : MountFS β) (path : PyStr) : Except Err (β × PyStr) := do
  m._check
  return m._delegate path

/-- `MountFS.geturl`: check, delegate — but the source forwards the
original `path`, not the delegate path. -/
def MountFS.geturl {β : Type} (m : MountFS β) (path : PyStr) : Except Err (β × PyStr) := do
  m._check
  let (fs, _p) := m._delegate path
  return (fs, path)

/-- `MountFS.hasurl`: check, delegate, forward with the delegate path. -/
def MountFS.hasurl {β : Type} (m : MountFS β) (path : PyStr) : Except Err (β × PyStr) := do
  m._check
  return m._delegate path

/-- `MountFS.isdir`: check, delegate, forward with the delegate path. -/
def MountFS.isdir {β : Type} (m : MountFS β) (path : PyStr) : Except Err (β × PyStr) := do
  m._check
  return m._delegate path

/-- `MountFS.isfile`: check, delegate, forward with the delegate path. -/
def MountFS.isfile {β : Type} (m : MountFS β) (path : PyStr) : Except Err (β × PyStr) := do
  m._check
  return m._delegate path

/-- `MountFS.scandir`: check, delegate, forward with the delegate path
(`namespaces` forwarded verbatim, omitted). -/
def MountFS.scandir {β : Type} (m : MountFS β) (path : PyStr) : Except Err (β × PyStr) := do
  m._check
  return m._delegate path

/-- `MountFS.setinfo`: check, delegate — but the source forwards the
original `path`, not the delegate path (`info` forwarded verbatim,
omitted). -/
def MountFS.setinfo {β : Type} (m : MountFS β) (path : PyStr) : Except Err (β × PyStr) := do
  m._check
  let (fs, _p) := m._delegate path
  return (fs, path)

/-- `MountFS.validatepath`: check, delegate, forward with the delegate
path. -/
def MountFS.validatepath {β : Type} (m : MountFS β) (path : PyStr) : Except Err (β × PyStr) := do
  m._check
  return m._delegate path

/-- `MountFS.open`: validate the mode (`validate_open_mode`, modelled by
`modeOk`), check, delegate, and forward with the delegate path, the mode
and the caller's `buffering` (encoding arguments forwarded verbatim,
omitted). -/
def MountFS.open {β : Type} (m : MountFS β) (path : PyStr) (mode : PyStr)
    (buffering : Int) (modeOk : Bool) : Except Err (OpenCall β) := do
  if !modeOk then throw .invalidOpenMode
  m._check
  let (fs, p) := m._delegate path
  return ⟨fs, p, mode, buffering⟩

/-- `MountFS.setbytes`: check, delegate — but the source forwards the
original `path`, not the delegate path (`contents` forwarded verbatim,
omitted). -/
def MountFS.setbytes {β : Type} (m : MountFS β) (path : PyStr) : Except Err (β × PyStr) := do
  m._check
  let (fs, _p) := m._delegate path
  return (fs, path)

/-- `MountFS.settext`: the source performs NO closed check — it delegates
straight away and forwards with the delegate path (`contents` and
encoding arguments forwarded verbatim, omitted). -/
def MountFS.settext {β : Type} (m : MountFS β) (path : PyStr) : Except Err (β × PyStr) := do
  return m._delegate path

example :
    MountFS.getinfo (MountFS.init Nat true 0) "/a".data = .ok (0, "/a".data) := by rfl
example :
    ((MountFS.init Nat true 0).mount "/data".data 1 false (fun _ => true)).st.mounts
      = [("/data/".data, 1)] := by decide
example :
    (((MountFS.init Nat true 0).mount "/data".data 1 false (fun _ => true)).st._delegate
      "/data/foo".data) = (1, "foo".data) := by decide

instance exceptDecEq {ε α : Type} [DecidableEq ε] [DecidableEq α] :
    DecidableEq (Except ε α) := fun x y =>
  match x, y with
  | .error a, .error b =>
    if h : a = b then .isTrue (congrArg Except.error h)
    else .isFalse (fun e => h (Except.error.inj e))
  | .ok a, .ok b =>
    if h : a = b then .isTrue (congrArg Except.ok h)
    else .isFalse (fun e => h (Except.ok.inj e))
  | .error _, .ok _ => .isFalse (fun e => Except.noConfusion e)
  | .ok _, .error _ => .isFalse (fun e => Except.noConfusion e)

/-- A `MountFS` over `Nat` backend handles with backend `1` mounted at
`/data` (default backend is handle `0`). -/
def demoFS : MountFS Nat :=
  ((MountFS.init Nat true 0).mount "/data".data 1 false (fun _ => true)).st

/-- A `MountFS` with backend `1` mounted at `/a` and backend `2` at
`/b`. -/
def demo2FS : MountFS Nat :=
  (((MountFS.init Nat true 0).mount "/a".data 1 false (fun _ => true)).st.mount
    "/b".data 2 false (fun _ => true)).st

/-! ## Structural lemmas about the path model -/

theorem startswith_iff (s p : PyStr) : startswith s p = true ↔ ∃ t, p ++ t = s := by
  induction p generalizing s with
  | nil => simp [startswith]
  | cons b bs ih =>
    cases s with
    | nil => simp [startswith]
    | cons a as_ =>
      simp only [startswith, Bool.and_eq_true, beq_iff_eq, ih, List.cons_append,
        List.cons.injEq]
      constructor
      · rintro ⟨hab, t, ht⟩
        exact ⟨t, hab.symm, ht⟩
      · rintro ⟨t, hba, ht⟩
        exact ⟨hba.symm, t, ht⟩

theorem rstripSlash_append_slash (s : PyStr) : rstripSlash (s ++ ['/']) = rstripSlash s := by
  simp [rstripSlash, List.dropWhile_cons]

theorem rstripSlash_of_getLast? (s : PyStr) (h : s.getLast? ≠ some '/') :
    rstripSlash s = s := by
  cases hs : s.reverse with
  | nil =>
    have : s = [] := by simpa using congrArg List.reverse hs
    simp [this, rstripSlash]
  | cons a t =>
    have ha : a ≠ '/' := by
      intro e
      apply h
      rw [← List.head?_reverse, hs, e]
      rfl
    have : rstripSlash s = (a :: t).reverse := by
      unfold rstripSlash
      rw [hs, List.dropWhile_cons]
      simp [ha]
    rw [this, ← hs, List.reverse_reverse]

theorem dropWhile_head_false {p : Char → Bool} :
    ∀ (l : PyStr) (a : Char), (l.dropWhile p).head? = some a → p a = false := by
  intro l
  induction l with
  | nil => simp [List.dropWhile]
  | cons x xs ih =>
    intro a h
    rw [List.dropWhile_cons] at h
    by_cases hx : p x = true
    · rw [if_pos hx] at h
      exact ih a h
    · rw [if_neg hx] at h
      simp only [List.head?_cons, Option.some.injEq] at h
      rw [← h]
      exact Bool.eq_false_iff.mpr hx

theorem rstripSlash_no_trailing (l : PyStr) : (rstripSlash l).getLast? ≠ some '/' := by
  unfold rstripSlash
  rw [List.getLast?_reverse]
  intro h
  have := dropWhile_head_false _ _ h
  simp at this

theorem noDS_tail {a : Char} {l : PyStr} (h : noDS (a :: l) = true) : noDS l = true := by
  cases l with
  | nil => rfl
  | cons b t =>
    unfold noDS at h
    simp only [Bool.and_eq_true] at h
    exact h.2

theorem noDS_suffix : ∀ (l₁ l₂ : PyStr), noDS (l₁ ++ l₂) = true → noDS l₂ = true := by
  intro l₁
  induction l₁ with
  | nil => simp
  | cons a t ih =>
    intro l₂ h
    exact ih l₂ (noDS_tail h)

theorem noDS_junction : ∀ (l₁ : PyStr) (b : Char) (l₂ : PyStr),
    noDS (l₁ ++ b :: l₂) = true → l₁.getLast? = some '/' → b ≠ '/' := by
  intro l₁
  induction l₁ with
  | nil => simp
  | cons a t ih =>
    intro b l₂ h hl
    cases t with
    | nil =>
      simp only [List.getLast?_singleton, Option.some.injEq] at hl
      rw [List.singleton_append] at h
      unfold noDS at h
      simp only [Bool.and_eq_true] at h
      have := h.1
      simp only [hl, Bool.not_and, beq_self_eq_true] at this
      intro hb
      simp [hb] at this
    | cons a₂ t₂ =>
      rw [List.getLast?_cons_cons] at hl
      exact ih b l₂ (noDS_tail h) hl

theorem splitSlash_ne_nil : ∀ p : PyStr, splitSlash p ≠ [] := by
  intro p
  induction p with
  | nil => simp [splitSlash]
  | cons c rest ih =>
    unfold splitSlash
    by_cases hc : c = '/'
    · simp [hc]
    · rw [if_neg hc]
      cases hr : splitSlash rest with
      | nil => simp
      | cons h t => simp

theorem splitSlash_no_slash : ∀ (p : PyStr), ∀ x ∈ splitSlash p, '/' ∉ x := by
  intro p
  induction p with
  | nil =>
    intro x hx
    simp only [splitSlash, List.mem_singleton] at hx
    simp [hx]
  | cons c rest ih =>
    intro x hx
    unfold splitSlash at hx
    by_cases hc : c = '/'
    · rw [if_pos hc] at hx
      rcases List.mem_cons.mp hx with h | h
      · simp [h]
      · exact ih x h
    · rw [if_neg hc] at hx
      cases hr : splitSlash rest with
      | nil => exact absurd hr (splitSlash_ne_nil rest)
      | cons hd tl =>
        rw [hr] at hx
        rcases List.mem_cons.mp hx with h | h
        · subst h
          intro hmem
          rcases List.mem_cons.mp hmem with h' | h'
          · exact hc h'.symm
          · exact ih hd (hr ▸ List.mem_cons_self hd tl) h'
        · exact ih x (hr ▸ List.mem_cons_of_mem hd h)

theorem foldl_normSteps_good : ∀ (cs : List PyStr) (acc : List PyStr),
    (∀ x ∈ acc, x ≠ [] ∧ '/' ∉ x) → (∀ c ∈ cs, '/' ∉ c) →
    ∀ x ∈ cs.foldl normSteps acc, x ≠ [] ∧ '/' ∉ x := by
  intro cs
  induction cs with
  | nil =>
    intro acc hacc _ x hx
    exact hacc x hx
  | cons c cs ih =>
    intro acc hacc hcs
    rw [List.foldl_cons]
    apply ih
    · intro x hx
      unfold normSteps at hx
      by_cases h1 : c = [] ∨ c = ['.']
      · rw [if_pos h1] at hx
        exact hacc x hx
      · rw [if_neg h1] at hx
        by_cases h2 : c = ['.', '.']
        · rw [if_pos h2] at hx
          exact hacc x (List.mem_of_mem_dropLast hx)
        · rw [if_neg h2] at hx
          rcases List.mem_append.mp hx with h | h
          · exact hacc x h
          · rw [List.mem_singleton] at h
            subst h
            exact ⟨fun he => h1 (Or.inl he), hcs x (List.mem_cons_self x cs)⟩
    · intro c' hc'
      exact hcs c' (List.mem_cons_of_mem c hc')

theorem components_good (p : PyStr) : ∀ x ∈ components p, x ≠ [] ∧ '/' ∉ x :=
  foldl_normSteps_good _ [] (by simp) (splitSlash_no_slash p)

/-- The canonical rendering of a component list as an absolute,
separator-terminated directory path: `renderDir [c₁, c₂] = "/c₁/c₂/"`. -/
def renderDir (L : List PyStr) : PyStr :=
  '/' :: L.foldr (fun c acc => c ++ '/' :: acc) []

theorem joinSlash_head? : ∀ (L : List PyStr), (∀ x ∈ L, x ≠ [] ∧ '/' ∉ x) → L ≠ [] →
    ∃ a, (joinSlash L).head? = some a ∧ a ≠ '/' := by
  intro L hL h0
  cases L with
  | nil => exact absurd rfl h0
  | cons c t =>
    have hc := hL c (List.mem_cons_self c t)
    cases hc' : c with
    | nil => exact absurd hc' hc.1
    | cons a c' =>
      have ha : a ≠ '/' := by
        intro e
        exact hc.2 (hc' ▸ e ▸ List.mem_cons_self a c')
      cases t with
      | nil => exact ⟨a, by simp [joinSlash, hc'], ha⟩
      | cons c₂ t₂ => exact ⟨a, by simp [joinSlash, hc'], ha⟩

theorem joinSlash_getLast? : ∀ (L : List PyStr), (∀ x ∈ L, x ≠ [] ∧ '/' ∉ x) → L ≠ [] →
    ∃ a, (joinSlash L).getLast? = some a ∧ a ≠ '/' := by
  intro L
  induction L with
  | nil => intro _ h0; exact absurd rfl h0
  | cons c t ih =>
    intro hL _
    have hc := hL c (List.mem_cons_self c t)
    cases t with
    | nil =>
      have hne : c ≠ [] := hc.1
      refine ⟨c.getLast hne, ?_, ?_⟩
      · show (joinSlash [c]).getLast? = _
        rw [show joinSlash [c] = c from rfl]
        exact List.getLast?_eq_getLast_of_ne_nil hne
      · intro e
        exact hc.2 (e ▸ List.getLast_mem hne)
    | cons c₂ t₂ =>
      obtain ⟨a, ha, ha'⟩ := ih (fun x hx => hL x (List.mem_cons_of_mem c hx))
        (List.cons_ne_nil c₂ t₂)
      refine ⟨a, ?_, ha'⟩
      have hne : joinSlash (c₂ :: t₂) ≠ [] := by
        intro e
        obtain ⟨b, hb, _⟩ := joinSlash_head? (c₂ :: t₂)
          (fun x hx => hL x (List.mem_cons_of_mem c hx)) (List.cons_ne_nil c₂ t₂)
        rw [e] at hb
        exact Option.noConfusion hb
      show (joinSlash (c :: c₂ :: t₂)).getLast? = some a
      unfold joinSlash
      rw [List.getLast?_append_of_ne_nil _ (List.cons_ne_nil _ _),
        show ('/' :: joinSlash (c₂ :: t₂)) = ['/'] ++ joinSlash (c₂ :: t₂) from rfl,
        List.getLast?_append_of_ne_nil _ hne, ha]

theorem joinSlash_append_slash : ∀ (L : List PyStr), L ≠ [] →
    joinSlash L ++ ['/'] = L.foldr (fun c acc => c ++ '/' :: acc) [] := by
  intro L
  induction L with
  | nil => intro h0; exact absurd rfl h0
  | cons c t ih =>
    intro _
    cases t with
    | nil => simp [joinSlash]
    | cons c₂ t₂ =>
      show (c ++ '/' :: joinSlash (c₂ :: t₂)) ++ ['/'] = c ++ '/' :: _
      rw [List.append_assoc, List.cons_append, ih (List.cons_ne_nil c₂ t₂)]

theorem npath_eq (p : PyStr) : npath p = renderDir (components p) := by
  unfold npath normpath
  have hgood := components_good p
  cases hL : components p with
  | nil =>
    by_cases hp : p.head? = some '/'
    · simp [hp, joinSlash, abspath, forcedir, renderDir]
    · simp [hp, joinSlash, abspath, forcedir, renderDir]
  | cons c t =>
    rw [← hL]
    have h0 : components p ≠ [] := by rw [hL]; exact List.cons_ne_nil c t
    obtain ⟨a, ha, ha'⟩ := joinSlash_head? (components p) hgood h0
    obtain ⟨b, hb, hb'⟩ := joinSlash_getLast? (components p) hgood h0
    have habs : abspath ((if p.head? = some '/' then ['/'] else []) ++
        joinSlash (components p)) = '/' :: joinSlash (components p) := by
      by_cases hp : p.head? = some '/'
      · simp [hp, abspath]
      · simp only [hp, if_false, List.nil_append]
        unfold abspath
        rw [if_neg]
        rw [ha]
        simp [ha']
    rw [habs]
    unfold forcedir
    rw [if_neg, show ('/' :: joinSlash (components p)) ++ ['/']
        = '/' :: (joinSlash (components p) ++ ['/']) from rfl,
      joinSlash_append_slash _ h0]
    · rfl
    · have hne : joinSlash (components p) ≠ [] := by
        intro e
        rw [e] at ha
        exact Option.noConfusion ha
      rw [show ('/' :: joinSlash (components p)) = ['/'] ++ joinSlash (components p) from rfl,
        List.getLast?_append_of_ne_nil _ hne, hb]
      intro e
      exact hb' (Option.some.inj e)

theorem foldr_slash_getLast? : ∀ (L : List PyStr), L ≠ [] →
    (L.foldr (fun c acc => c ++ '/' :: acc) []).getLast? = some '/' := by
  intro L
  induction L with
  | nil => intro h0; exact absurd rfl h0
  | cons c t ih =>
    intro _
    cases t with
    | nil => simp
    | cons c₂ t₂ =>
      have hF := ih (List.cons_ne_nil c₂ t₂)
      have hne : ((c₂ :: t₂).foldr (fun c acc => c ++ '/' :: acc) []) ≠ [] := by
        intro e
        rw [e] at hF
        exact Option.noConfusion hF
      show (c ++ '/' :: _).getLast? = some '/'
      rw [List.getLast?_append_of_ne_nil _ (List.cons_ne_nil _ _),
        show ('/' :: (c₂ :: t₂).foldr (fun c acc => c ++ '/' :: acc) [])
          = ['/'] ++ (c₂ :: t₂).foldr (fun c acc => c ++ '/' :: acc) [] from rfl,
        List.getLast?_append_of_ne_nil _ hne, hF]

theorem renderDir_getLast? (L : List PyStr) : (renderDir L).getLast? = some '/' := by
  cases L with
  | nil => rfl
  | cons c t =>
    unfold renderDir
    have hF := foldr_slash_getLast? (c :: t) (List.cons_ne_nil c t)
    have hne : ((c :: t).foldr (fun c acc => c ++ '/' :: acc) []) ≠ [] := by
      intro e
      rw [e] at hF
      exact Option.noConfusion hF
    rw [show ('/' :: (c :: t).foldr (fun c acc => c ++ '/' :: acc) [])
        = ['/'] ++ (c :: t).foldr (fun c acc => c ++ '/' :: acc) [] from rfl,
      List.getLast?_append_of_ne_nil _ hne, hF]

theorem noDS_seg : ∀ (c : PyStr) (rest : PyStr), '/' ∉ c →
    noDS ('/' :: rest) = true → noDS (c ++ '/' :: rest) = true := by
  intro c
  induction c with
  | nil => intro rest _ h2; exact h2
  | cons a c' ih =>
    intro rest hc h2
    have ha : a ≠ '/' := fun e => hc (e ▸ List.mem_cons_self a c')
    cases c' with
    | nil =>
      show noDS (a :: '/' :: rest) = true
      unfold noDS
      simp only [Bool.and_eq_true, Bool.not_eq_true']
      exact ⟨by simp [ha], h2⟩
    | cons a₂ c'' =>
      have ha₂ : '/' ∉ (a₂ :: c'') := fun hm => hc (List.mem_cons_of_mem a hm)
      show noDS (a :: a₂ :: (c'' ++ '/' :: rest)) = true
      unfold noDS
      simp only [Bool.and_eq_true, Bool.not_eq_true']
      refine ⟨by simp [ha], ?_⟩
      exact ih rest ha₂ h2

theorem noDS_renderDir : ∀ (L : List PyStr), (∀ x ∈ L, x ≠ [] ∧ '/' ∉ x) →
    noDS (renderDir L) = true := by
  intro L
  induction L with
  | nil => intro _; rfl
  | cons c t ih =>
    intro hL
    have hc := hL c (List.mem_cons_self c t)
    have hF : noDS (renderDir t) = true := ih (fun x hx => hL x (List.mem_cons_of_mem c hx))
    cases hc' : c with
    | nil => exact absurd hc' hc.1
    | cons a c' =>
      subst hc'
      have ha : a ≠ '/' := by
        intro e
        exact hc.2 (e ▸ List.mem_cons_self a c')
      have ha' : '/' ∉ c' := fun hm => hc.2 (List.mem_cons_of_mem a hm)
      show noDS ('/' :: a :: (c' ++ '/' :: t.foldr (fun c acc => c ++ '/' :: acc) [])) = true
      unfold noDS
      simp only [Bool.and_eq_true, Bool.not_eq_true']
      refine ⟨by simp [ha], ?_⟩
      exact noDS_seg (a :: c') _ (by
        intro hm
        rcases List.mem_cons.mp hm with h | h
        · exact ha h.symm
        · exact ha' h) hF

theorem isDirPath_npath (p : PyStr) : IsDirPath (npath p) := by
  rw [npath_eq]
  exact ⟨rfl, renderDir_getLast? _, noDS_renderDir _ (components_good p)⟩

theorem delegateLoop_first {β : Type} (target : PyStr) :
    ∀ (l : List (PyStr × β)), (∃ e ∈ l, startswith target e.1 = true) →
    ∃ pre e post, l = pre ++ e :: post ∧
      (∀ e' ∈ pre, startswith target e'.1 = false) ∧
      startswith target e.1 = true ∧
      delegateLoop target l = some (e.2, rstripSlash (target.drop e.1.length)) := by
  intro l
  induction l with
  | nil =>
    rintro ⟨e, he, _⟩
    exact absurd he (List.not_mem_nil e)
  | cons hd tl ih =>
    obtain ⟨mp, fs⟩ := hd
    intro hex
    by_cases hh : startswith target mp = true
    · exact ⟨[], (mp, fs), tl, rfl, by simp, hh, by simp [delegateLoop, hh]⟩
    · have hex' : ∃ e ∈ tl, startswith target e.1 = true := by
        rcases hex with ⟨e, he, hse⟩
        rcases List.mem_cons.mp he with rfl | htl
        · exact absurd hse hh
        · exact ⟨e, htl, hse⟩
      obtain ⟨pre, e, post, hl, hpre, hse, hres⟩ := ih hex'
      refine ⟨(mp, fs) :: pre, e, post, by rw [hl]; rfl, ?_, hse, ?_⟩
      · intro e' he'
        rcases List.mem_cons.mp he' with rfl | hp
        · exact Bool.eq_false_iff.mpr hh
        · exact hpre e' hp
      · simp [delegateLoop, hh, hres]

theorem delegateLoop_none {β : Type} (target : PyStr) :
    ∀ (l : List (PyStr × β)), (∀ e ∈ l, startswith target e.1 = false) →
    delegateLoop target l = none := by
  intro l
  induction l with
  | nil => intro _; rfl
  | cons hd tl ih =>
    obtain ⟨mp, fs⟩ := hd
    intro hall
    have hh := hall (mp, fs) (List.mem_cons_self _ _)
    simp only at hh
    simp [delegateLoop, hh]
    exact ih (fun e he => hall e (List.mem_cons_of_mem _ he))

/-- The states of a `MountFS` reachable from construction by any
sequence of `mount` calls (successful or failed). -/
inductive Reachable {β : Type} : MountFS β → Prop where
  | init (ac : Bool) (d : β) : Reachable (MountFS.init β ac d)
  | step (m : MountFS β) (p : PyStr) (fs : β) (b : Bool) (mk : PyStr → Bool) :
      Reachable m → Reachable (MountFS.mount m p fs b mk).st

/-- A `mount` call either leaves the state unchanged (self-mount or
conflict) or appends exactly `(npath p, fs)` after the conflict check
passed. -/
theorem mount_st_cases {β : Type} (m : MountFS β) (p : PyStr) (fs : β)
    (b : Bool) (mk : PyStr → Bool) :
    (MountFS.mount m p fs b mk).st = m ∨
    ((MountFS.mount m p fs b mk).st
        = { m with mounts := m.mounts ++ [(npath p, fs)] } ∧
      m.mounts.any (fun e => startswith (npath p) e.1) = false) := by
  unfold MountFS.mount npath
  by_cases hb : b = true
  · left
    simp [hb]
  · simp only [Bool.not_eq_true] at hb
    by_cases hany : m.mounts.any
        (fun e => startswith (forcedir (abspath (normpath p))) e.1) = true
    · left
      simp [hb, hany]
    · right
      simp only [Bool.not_eq_true] at hany
      by_cases hmk : mk (forcedir (abspath (normpath p))) = true
      · simp [hb, hany, hmk]
      · simp only [Bool.not_eq_true] at hmk
        simp [hb, hany, hmk]

theorem reachable_dirPath {β : Type} {m : MountFS β} (h : Reachable m) :
    ∀ e ∈ m.mounts, IsDirPath e.1 := by
  induction h with
  | init ac d => simp [MountFS.init]
  | step m p fs b mk hr ih =>
    rcases mount_st_cases m p fs b mk with hc | ⟨hc, _⟩
    · rw [hc]
      exact ih
    · rw [hc]
      intro e he
      rcases List.mem_append.mp he with hm | hm
      · exact ih e hm
      · rw [List.mem_singleton] at hm
        subst hm
        exact isDirPath_npath p

theorem reachable_pairwise {β : Type} {m : MountFS β} (h : Reachable m) :
    m.mounts.Pairwise (fun a b => startswith b.1 a.1 = false) := by
  induction h with
  | init ac d => simp [MountFS.init]
  | step m p fs b mk hr ih =>
    rcases mount_st_cases m p fs b mk with hc | ⟨hc, hany⟩
    · rw [hc]
      exact ih
    · rw [hc]
      refine (List.pairwise_append).mpr ⟨ih, by simp, ?_⟩
      intro a ha e he
      rw [List.mem_singleton] at he
      subst he
      rw [List.any_eq_false] at hany
      exact Bool.eq_false_iff.mpr (hany a ha)

/-- The central suffix lemma: when a canonical directory path `M` is a
prefix of a canonical directory path `t`, the delegate path
`t[len(M):].rstrip('/')` (i) restores `t` once the mount prefix and a
forced trailing separator are put back, (ii) carries no trailing
separator, and (iii) does not start with `M` itself. -/
theorem suffix_spec (M t : PyStr) (hM : IsDirPath M) (ht : IsDirPath t)
    (h : startswith t M = true) :
    forcedir (M ++ rstripSlash (t.drop M.length)) = t ∧
    (rstripSlash (t.drop M.length)).getLast? ≠ some '/' ∧
    startswith (rstripSlash (t.drop M.length)) M = false := by
  obtain ⟨rest, hrest⟩ := (startswith_iff t M).mp h
  have hdrop : t.drop M.length = rest := by
    rw [← hrest]
    exact List.drop_left _ _
  rw [hdrop]
  obtain ⟨hMh, hMl, _⟩ := hM
  obtain ⟨Mc, M', hMc⟩ : ∃ a M', M = a :: M' := by
    cases M with
    | nil => exact Option.noConfusion hMh
    | cons a M' => exact ⟨a, M', rfl⟩
  have hMch : Mc = '/' := by
    rw [hMc] at hMh
    exact Option.some.inj hMh
  cases hr : rest with
  | nil =>
    subst hr
    rw [List.append_nil] at hrest
    refine ⟨?_, rstripSlash_no_trailing [], ?_⟩
    · rw [show rstripSlash [] = [] from rfl, List.append_nil]
      unfold forcedir
      rw [if_pos hMl]
      exact hrest
    · rw [show rstripSlash [] = [] from rfl, hMc]
      rfl
  | cons r rest' =>
    subst hr
    have hnds : noDS (r :: rest') = true := by
      have := ht.2.2
      rw [← hrest] at this
      exact noDS_suffix M _ this
    have hjunc : r ≠ '/' := by
      apply noDS_junction M r rest' _ hMl
      rw [hrest]
      exact ht.2.2
    have hlastr : (r :: rest').getLast? = some '/' := by
      have := ht.2.1
      rw [← hrest, List.getLast?_append_of_ne_nil _ (List.cons_ne_nil r rest')] at this
      exact this
    have hne : (r :: rest') ≠ [] := List.cons_ne_nil r rest'
    have hsplit : (r :: rest').dropLast ++ ['/'] = r :: rest' := by
      have h1 := List.dropLast_append_getLast hne
      have h2 : (r :: rest').getLast hne = '/' := by
        have := List.getLast?_eq_getLast_of_ne_nil hne
        rw [hlastr] at this
        exact (Option.some.inj this).symm
      rw [h2] at h1
      exact h1
    have hslast : ((r :: rest').dropLast).getLast? ≠ some '/' := by
      cases hsx : (r :: rest').dropLast with
      | nil => simp
      | cons q s' =>
        intro hcon
        rw [hsx] at hsplit
        apply noDS_junction (q :: s') '/' [] _ hcon rfl
        rw [show (q :: s') ++ '/' :: [] = q :: s' ++ ['/'] from rfl, hsplit]
        exact hnds
    have hstrip : rstripSlash (r :: rest') = (r :: rest').dropLast := by
      conv_lhs => rw [← hsplit]
      rw [rstripSlash_append_slash, rstripSlash_of_getLast? _ hslast]
    have hsne : (r :: rest').dropLast ≠ [] := by
      intro e
      rw [e, List.nil_append] at hsplit
      have : r = '/' := ((List.cons.inj hsplit).1).symm
      exact hjunc this
    obtain ⟨q, s', hqs⟩ : ∃ q s', (r :: rest').dropLast = q :: s' := by
      cases hx : (r :: rest').dropLast with
      | nil => exact absurd hx hsne
      | cons q s' => exact ⟨q, s', rfl⟩
    have hq : q = r := by
      rw [hqs] at hsplit
      exact (List.cons.inj hsplit).1
    refine ⟨?_, rstripSlash_no_trailing _, ?_⟩
    · rw [hstrip]
      unfold forcedir
      rw [if_neg]
      · rw [List.append_assoc]
        rw [show (r :: rest').dropLast ++ ['/'] = r :: rest' from by
          rw [hqs] at hsplit ⊢
          rw [show (q :: s') ++ ['/'] = q :: s' ++ ['/'] from rfl]
          exact hsplit]
        exact hrest
      · rw [List.getLast?_append_of_ne_nil _ hsne]
        exact hslast
    · rw [hstrip, hqs, hMc, hMch]
      show (q == '/' && startswith s' M') = false
      rw [hq]
      simp [hjunc]

/-! ## The claims -/

/-- C1: the claim that every proxied operation forwards the backend the
relative path produced by resolution, never the caller's original
absolute path, fails on the source: `getsize`, `getsyspath`, `geturl`,
`setinfo` and `setbytes` all invoke the backend with the original
absolute path, although resolution produced the relative path `"foo"`
(as `_delegate` shows). -/
theorem c1_absolute_path_forwarded :
    demoFS.getsize "/data/foo".data = .ok (1, "/data/foo".data) ∧
    demoFS.getsyspath "/data/foo".data = .ok (1, "/data/foo".data) ∧
    demoFS.geturl "/data/foo".data = .ok (1, "/data/foo".data) ∧
    demoFS.setinfo "/data/foo".data = .ok (1, "/data/foo".data) ∧
    demoFS.setbytes "/data/foo".data = .ok (1, "/data/foo".data) ∧
    demoFS._delegate "/data/foo".data = (1, "foo".data) ∧
    "/data/foo".data ≠ "foo".data := by decide

/-- C2: after `close()` with `auto_close=true` the mount table is indeed
empty and the façade is marked closed, and `getinfo` (like every other
checked operation) fails with the façade's closed-filesystem error — but
`settext` performs no closed check: it is delegated to the (closed)
default backend instead of failing with the façade's lifecycle error,
refuting the claim for `settext`. -/
theorem c2_settext_skips_closed_check :
    (demoFS.close (fun _ => false)).st.closed = true ∧
    (demoFS.close (fun _ => false)).st.mounts = [] ∧
    (demoFS.close (fun _ => false)).st.getinfo "/a.txt".data
      = .error .filesystemClosed ∧
    (demoFS.close (fun _ => false)).st.settext "/a.txt".data
      = .ok ((demoFS.close (fun _ => false)).st.default_fs, "/a.txt".data) := by
  decide

/-- C3: `mount(path, fs)` (with `fs` not the façade itself) fails with the
mount-conflict error exactly when the normalized, separator-terminated
form of `path` starts with some existing entry's mount path; in
particular mounting `/data` after `/data/cache` succeeds while mounting
`/data/cache` after `/data` fails. -/
theorem c3_mount_conflict_iff :
    (∀ (β : Type) (m : MountFS β) (p : PyStr) (fs : β) (mk : PyStr → Bool),
      (m.mount p fs false mk).out = .mountConflict ↔
        ∃ e ∈ m.mounts, startswith (npath p) e.1 = true) ∧
    ((MountFS.init Nat true 0).mount "/data/cache".data 1 false
        (fun _ => true)).out = .ok ∧
    (((MountFS.init Nat true 0).mount "/data/cache".data 1 false
        (fun _ => true)).st.mount "/data".data 2 false (fun _ => true)).out
      = .ok ∧
    ((MountFS.init Nat true 0).mount "/data".data 1 false
        (fun _ => true)).out = .ok ∧
    (((MountFS.init Nat true 0).mount "/data".data 1 false
        (fun _ => true)).st.mount "/data/cache".data 2 false (fun _ => true)).out
      = .mountConflict := by
  refine ⟨?_, by decide, by decide, by decide, by decide⟩
  intro β m p fs mk
  unfold MountFS.mount npath
  by_cases hany : m.mounts.any
      (fun e => startswith (forcedir (abspath (normpath p))) e.1) = true
  · simp only [Bool.false_eq_true, if_false, hany, if_true]
    rw [List.any_eq_true] at hany
    simp only [true_iff]
    exact hany
  · simp only [Bool.not_eq_true] at hany
    simp only [Bool.false_eq_true, if_false, hany, if_true]
    rw [List.any_eq_false] at hany
    by_cases hmk : mk (forcedir (abspath (normpath p))) = true
    · simp only [hmk, if_true]
      constructor
      · intro h
        exact absurd h (by simp)
      · rintro ⟨e, he, hse⟩
        exact absurd hse (by simp [hany e he])
    · simp only [Bool.not_eq_true] at hmk
      simp only [hmk, Bool.false_eq_true, if_false]
      constructor
      · intro h
        exact absurd h (by simp)
      · rintro ⟨e, he, hse⟩
        exact absurd hse (by simp [hany e he])

/-- C4: in a table built by `mount` calls, for every mount `(M, B)` and
every path `P` whose normalized, separator-terminated form starts with
`M`, `_delegate` returns the first matching entry `e` in insertion order,
yielding `(e.2, suffix)` where the suffix is the normalized path with the
mount prefix stripped: restoring the mount prefix and the forced trailing
separator gives back the normalized path, the suffix carries no trailing
separator, and the suffix never begins with the matched mount path. -/
theorem c4_delegate_first_match {β : Type} (m : MountFS β) (M : PyStr) (B : β)
    (P : PyStr) (hreach : Reachable m) (hmem : (M, B) ∈ m.mounts)
    (hpre : startswith (npath P) M = true) :
    ∃ pre e post, m.mounts = pre ++ e :: post ∧
      (∀ e' ∈ pre, startswith (npath P) e'.1 = false) ∧
      startswith (npath P) e.1 = true ∧
      m._delegate P = (e.2, rstripSlash ((npath P).drop e.1.length)) ∧
      forcedir (e.1 ++ (m._delegate P).2) = npath P ∧
      ((m._delegate P).2).getLast? ≠ some '/' ∧
      startswith (m._delegate P).2 e.1 = false := by
  have hex : ∃ e ∈ m.mounts, startswith (npath P) e.1 = true := ⟨(M, B), hmem, hpre⟩
  obtain ⟨pre, e, post, hl, hpre', hse, hres⟩ := delegateLoop_first (npath P) m.mounts hex
  have hdel : m._delegate P = (e.2, rstripSlash ((npath P).drop e.1.length)) := by
    unfold MountFS._delegate
    simp only [show forcedir (abspath (normpath P)) = npath P from rfl, hres]
  have hmem' : e ∈ m.mounts := by
    rw [hl]
    exact List.mem_append.mpr (Or.inr (List.mem_cons_self e post))
  have hdir : IsDirPath e.1 := reachable_dirPath hreach e hmem'
  have hsfx := suffix_spec e.1 (npath P) hdir (isDirPath_npath P) hse
  refine ⟨pre, e, post, hl, hpre', hse, hdel, ?_, ?_, ?_⟩
  · rw [hdel]
    exact hsfx.1
  · rw [hdel]
    exact hsfx.2.1
  · rw [hdel]
    exact hsfx.2.2

/-- Witness for C4 at a concrete table: backend 1 mounted at `/data`,
resolving `/data/foo`. -/
theorem c4_delegate_first_match_witness :
    ∃ pre e post, demoFS.mounts = pre ++ e :: post ∧
      (∀ e' ∈ pre, startswith (npath "/data/foo".data) e'.1 = false) ∧
      startswith (npath "/data/foo".data) e.1 = true ∧
      demoFS._delegate "/data/foo".data
        = (e.2, rstripSlash ((npath "/data/foo".data).drop e.1.length)) ∧
      forcedir (e.1 ++ (demoFS._delegate "/data/foo".data).2)
        = npath "/data/foo".data ∧
      ((demoFS._delegate "/data/foo".data).2).getLast? ≠ some '/' ∧
      startswith (demoFS._delegate "/data/foo".data).2 e.1 = false :=
  c4_delegate_first_match demoFS "/data/".data 1 "/data/foo".data
    (Reachable.step _ _ _ _ _ (Reachable.init true 0)) (by decide) (by decide)

/-- C5: a path under no registered mount resolves to the default backend
with the caller's original path completely unchanged — not normalized,
not relativized. -/
theorem c5_delegate_default {β : Type} (m : MountFS β) (P : PyStr)
    (h : ∀ e ∈ m.mounts, startswith (npath P) e.1 = false) :
    m._delegate P = (m.default_fs, P) := by
  unfold npath at h
  have hnone := delegateLoop_none _ m.mounts h
  unfold MountFS._delegate
  simp only
  rw [hnone]

/-- Witness for C5: a messy, non-normalized path outside the only mount is
returned verbatim alongside the default backend. -/
theorem c5_delegate_default_witness :
    demoFS._delegate "other//x/./f".data = (0, "other//x/./f".data) :=
  c5_delegate_default demoFS "other//x/./f".data (by decide)

/-- C6 counterexample: the invariant fails in both directions.  From a
fresh table, mounting backend 1 at `/data/cache` and then backend 2 at
`/data` both succeed, yet the second entry's mount path is a prefix of
the first entry's mount path, so a reachable table does contain two
entries where one path is a prefix of the other. -/
theorem c6_counterexample :
    ((MountFS.init Nat true 0).mount "/data/cache".data 1 false
        (fun _ => true)).out = .ok ∧
    (((MountFS.init Nat true 0).mount "/data/cache".data 1 false
        (fun _ => true)).st.mount "/data".data 2 false (fun _ => true)).out
      = .ok ∧
    (((MountFS.init Nat true 0).mount "/data/cache".data 1 false
        (fun _ => true)).st.mount "/data".data 2 false (fun _ => true)).st.mounts
      = [("/data/cache/".data, 1), ("/data/".data, 2)] ∧
    startswith "/data/cache/".data "/data/".data = true := by decide

/-- C6 amended: the one-directional invariant that the conflict check does
maintain — in every table reachable by `mount` calls, no entry's mount
path starts with an earlier entry's mount path (a later mount path may
still be a proper prefix of an earlier one, as the counterexample
shows). -/
theorem c6_one_directional_invariant {β : Type} {m : MountFS β}
    (h : Reachable m) :
    m.mounts.Pairwise (fun a b => startswith b.1 a.1 = false) :=
  reachable_pairwise h

/-- Witness for the amended C6 on the counterexample's reachable table. -/
theorem c6_one_directional_invariant_witness :
    (((MountFS.init Nat true 0).mount "/data/cache".data 1 false
        (fun _ => true)).st.mount "/data".data 2 false (fun _ => true)).st.mounts.Pairwise
      (fun a b => startswith b.1 a.1 = false) :=
  c6_one_directional_invariant
    (Reachable.step _ _ _ _ _ (Reachable.step _ _ _ _ _ (Reachable.init true 0)))

/-- C7: `close()` is not exception-safe.  With backends 1 (at `/a`) and 2
(at `/b`) and `auto_close` enabled, when backend 1's `close()` raises:
backend 2 is never closed, the mount table is not cleared, the default
backend's `close()` is never attempted, and the façade is not marked
closed — refuting every resilience guarantee of the claim.  (When no
close fails, the happy-path behaviour the claim describes does hold, as
the last four conjuncts show.) -/
theorem c7_close_not_exception_safe :
    (demo2FS.close (fun b => b == 1)).raised = true ∧
    (demo2FS.close (fun b => b == 1)).closeCalls = [1] ∧
    (demo2FS.close (fun b => b == 1)).st.mounts = demo2FS.mounts ∧
    demo2FS.mounts ≠ [] ∧
    (demo2FS.close (fun b => b == 1)).defaultClosed = false ∧
    (demo2FS.close (fun b => b == 1)).st.closed = false ∧
    (demo2FS.close (fun _ => false)).closeCalls = [1, 2] ∧
    (demo2FS.close (fun _ => false)).st.mounts = [] ∧
    (demo2FS.close (fun _ => false)).defaultClosed = true ∧
    (demo2FS.close (fun _ => false)).st.closed = true := by decide

/-- C8: on an open filesystem, `removedir` fails with the root-removal
error, without delegating to any backend, exactly when the normalized
path is the root (`''` or `'/'`); every other directory removal is
delegated to the resolved backend with the delegate path. -/
theorem c8_removedir_root_guard {β : Type} (m : MountFS β) (p : PyStr)
    (hopen : m.closed = false) :
    ((normpath p = [] ∨ normpath p = ['/']) →
      m.removedir p = .error (.removeRootError (normpath p))) ∧
    (¬(normpath p = [] ∨ normpath p = ['/']) →
      m.removedir p = .ok (m._delegate (normpath p))) := by
  have hch : m._check = .ok () := by
    unfold MountFS._check
    rw [hopen]
    rfl
  constructor
  · intro hroot
    unfold MountFS.removedir
    rw [hch]
    show (if normpath p = [] ∨ normpath p = ['/']
        then (Except.error (Err.removeRootError (normpath p)) : Except Err (β × PyStr))
        else pure (m._delegate (normpath p)))
      = Except.error (Err.removeRootError (normpath p))
    rw [if_pos hroot]
  · intro hroot
    unfold MountFS.removedir
    rw [hch]
    show (if normpath p = [] ∨ normpath p = ['/']
        then (Except.error (Err.removeRootError (normpath p)) : Except Err (β × PyStr))
        else pure (m._delegate (normpath p)))
      = Except.ok (m._delegate (normpath p))
    rw [if_neg hroot]
    rfl

/-- Witness for C8: `removedir("/")`, `removedir("")` and a path that
normalizes to the root all fail with the root-removal error; an ordinary
path delegates to the mounted backend with the relative path. -/
theorem c8_removedir_root_guard_witness :
    (MountFS.init Nat true 0).removedir "/".data
      = .error (.removeRootError "/".data) ∧
    (MountFS.init Nat true 0).removedir "".data
      = .error (.removeRootError "".data) ∧
    (MountFS.init Nat true 0).removedir "a/..".data
      = .error (.removeRootError "".data) ∧
    demoFS.removedir "/data/x".data = .ok (1, "x".data) := by
  refine ⟨?_, ?_, ?_, ?_⟩
  · exact (c8_removedir_root_guard (MountFS.init Nat true 0) "/".data rfl).1
      (by decide)
  · exact (c8_removedir_root_guard (MountFS.init Nat true 0) "".data rfl).1
      (by decide)
  · exact (c8_removedir_root_guard (MountFS.init Nat true 0) "a/..".data rfl).1
      (by decide)
  · exact (c8_removedir_root_guard demoFS "/data/x".data rfl).2 (by decide)

/-- C9: the claim that arguments are forwarded unchanged fails for
`openbin`: calling it with `buffering = 0` invokes the backend with
`buffering = -1` (the source hardcodes `-1`), while `open` does forward
the caller's `buffering`. -/
theorem c9_openbin_buffering_not_forwarded :
    demoFS.openbin "/data/foo".data "rb".data 0 true
      = .ok ⟨1, "foo".data, "rb".data, -1⟩ ∧
    demoFS.open "/data/foo".data "rb".data 0 true
      = .ok ⟨1, "foo".data, "rb".data, 0⟩ ∧
    (0 : Int) ≠ -1 := by decide

/-- C10: a `mount` call that passes the self-mount and conflict checks but
whose `default_fs.makedirs` raises leaves the freshly appended entry in
the mount table: the entry is appended before `makedirs` runs, and the
failure does not roll it back. -/
theorem c10_mount_appends_before_makedirs {β : Type} (m : MountFS β)
    (p : PyStr) (fs : β) (mk : PyStr → Bool)
    (hconf : m.mounts.any (fun e => startswith (npath p) e.1) = false)
    (hmk : mk (npath p) = false) :
    (m.mount p fs false mk).out = .makedirsError ∧
    (m.mount p fs false mk).st.mounts = m.mounts ++ [(npath p, fs)] := by
  unfold npath at hconf hmk ⊢
  unfold MountFS.mount
  simp [hconf, hmk]

/-- Witness for C10: mounting `/data` on a fresh table with a failing
`makedirs` reports the `makedirs` error yet registers the entry. -/
theorem c10_mount_appends_before_makedirs_witness :
    ((MountFS.init Nat true 0).mount "/data".data 1 false (fun _ => false)).out
      = .makedirsError ∧
    ((MountFS.init Nat true 0).mount "/data".data 1 false (fun _ => false)).st.mounts
      = (MountFS.init Nat true 0).mounts ++ [(npath "/data".data, 1)] :=
  c10_mount_appends_before_makedirs (MountFS.init Nat true 0) "/data".data 1
    (fun _ => false) (by decide) (by decide)
